import Mathlib

/-!
Shallow embedding of the Monte-Carlo value-at-risk engine of
`var-demo.ipynb` (seed generation, per-day simulation step, trial
simulation with and without history, trial running, decile sampling and
VaR extraction), together with theorems settling the specification
claims about it.

Python floats are embedded as rationals (every arithmetic step used by
the claims is exact at the claimed inputs), Python ints as `Nat`,
dictionaries as insertion-ordered association lists (`Portfolio`) or as
lookup functions returning `Option` (`ReturnProfiles`, where a missing
key is the `KeyError` case).  The pseudo-random generator of the
`random` module is abstracted by a state type `G`, a seeding function
`seedFn` (modelling `Random(); prng.seed(seed)`) and a draw function
`gaussNext : G → ℚ × G` producing the standard-normal variate `z`
consumed by `normalvariate` (which CPython computes as `mu + z * sigma`).
-/

namespace VarDemo

/-- A portfolio, `dict` from ticker symbol to held quantity, in insertion
order as Python dictionaries preserve it. -/
abbrev Portfolio : Type := List (String × ℚ)

/-- The per-security return profiles `params`, a `dict` from symbol to
`(mean, stddev)`; `none` models the `KeyError` on a missing symbol. -/
abbrev ReturnProfiles : Type := String → Option (ℚ × ℚ)

/-- Source: `def portfolio_value(pf): return sum([v for v in pf.values()])`. -/
def portfolio_value (pf : Portfolio) : ℚ :=
  (pf.map Prod.snd).sum

/-- Python's `random.randint(lo, hi)`: a uniform integer in `[lo, hi]`,
both ends inclusive, driven here by one abstract nonnegative draw. -/
def randint (lo hi : Nat) (draw : Nat) : Nat :=
  lo + draw % (hi + 1 - lo)

/-- The upper bound used by `seeds`: the Python expression `1 << 32 - 1`
parses as `1 <<< (32 - 1)` (shift binds looser than subtraction), i.e.
`2 ^ 31`. -/
def seedBound : Nat := 1 <<< (32 - 1)

/-- Source: `def seeds(count): return [randint(0, 1 << 32 - 1) for i in
range(count)]`, with the global generator's successive draws abstracted
as the function `draws`. -/
def seeds (count : Nat) (draws : Nat → Nat) : List Nat :=
  (List.range count).map (fun i => randint 0 seedBound (draws i))

/-- CPython's `prng.normalvariate(mu, sigma)` returns `mu + z * sigma`
where `z` is the standard normal variate produced from the generator
state; `gaussNext` abstracts the state-advancing production of `z`. -/
def normalvariate {G : Type} (gaussNext : G → ℚ × G) (g : G) (mu sigma : ℚ) : ℚ × G :=
  (mu + (gaussNext g).1 * sigma, (gaussNext g).2)

/-- Source:
`def simstep(pf, params, prng):`
`    def daily_return(sym):`
`        mean, stddev = params[sym]`
`        change = (prng.normalvariate(mean, stddev) + 100) / 100.0`
`        return change`
`    return dict([(s, daily_return(s) * v) for s, v in pf.items()])`
The comprehension evaluates `daily_return` once per item in insertion
order, threading the generator state; `params[sym]` on a missing symbol
is the `KeyError` case (`none`). -/
def simstep {G : Type} (gaussNext : G → ℚ × G) (pf : Portfolio)
    (params : ReturnProfiles) (g : G) : Option (Portfolio × G) :=
  match pf with
  | [] => some ([], g)
  | (s, v) :: rest =>
    match params s with
    | none => none
    | some ms =>
      let xg := normalvariate gaussNext g ms.1 ms.2
      match simstep gaussNext rest params xg.2 with
      | none => none
      | some rg => some ((s, ((xg.1 + 100) / 100) * v) :: rg.1, rg.2)

/-- The day loop of `simulate`: `for day in range(days): pf = simstep(pf,
params, prng)`, returning the final portfolio. -/
def simGo {G : Type} (gaussNext : G → ℚ × G) (params : ReturnProfiles) :
    G → Portfolio → Nat → Option Portfolio
  | _, pf, 0 => some pf
  | g, pf, d + 1 =>
    match simstep gaussNext pf params g with
    | none => none
    | some pg => simGo gaussNext params pg.2 pg.1 d

/-- Source:
`def simulate(seed, pf, params, days):`
`    prng = Random(); prng.seed(seed); pf = pf.copy()`
`    for day in range(days): pf = simstep(pf, params, prng)`
`    return pf`
`pf.copy()` is a fresh dictionary with the same entries, hence the same
value; `seedFn seed` models the freshly constructed, privately seeded
generator. -/
def simulate {G : Type} (gaussNext : G → ℚ × G) (seedFn : Nat → G)
    (seed : Nat) (pf : Portfolio) (params : ReturnProfiles) (days : Nat) :
    Option Portfolio :=
  simGo gaussNext params (seedFn seed) pf days

/-- The day loop of `simulate_with_history`: after each `simstep` the
value `portfolio_value(pf)` is appended to the history. -/
def histGo {G : Type} (gaussNext : G → ℚ × G) (params : ReturnProfiles) :
    G → Portfolio → Nat → Option (List ℚ)
  | _, _, 0 => some []
  | g, pf, d + 1 =>
    match simstep gaussNext pf params g with
    | none => none
    | some pg =>
      (histGo gaussNext params pg.2 pg.1 d).map
        (fun t => portfolio_value pg.1 :: t)

/-- Source:
`def simulate_with_history(seed, pf, params, days):`
`    prng = Random(); prng.seed(seed); pf = pf.copy()`
`    values = [portfolio_value(pf)]`
`    for day in range(days):`
`        pf = simstep(pf, params, prng)`
`        values.append(portfolio_value(pf))`
`    return values` -/
def simulate_with_history {G : Type} (gaussNext : G → ℚ × G) (seedFn : Nat → G)
    (seed : Nat) (pf : Portfolio) (params : ReturnProfiles) (days : Nat) :
    Option (List ℚ) :=
  (histGo gaussNext params (seedFn seed) pf days).map
    (fun t => portfolio_value pf :: t)

/-- One trial of the runner, source cell:
`results = seed_rdd.map(lambda s: portfolio_value(simulate(s, bpf.value,
bparams.value, days_to_simulate)) - initial_value)` where
`initial_value = portfolio_value(portfolio)`. -/
def trialOutcome {G : Type} (gaussNext : G → ℚ × G) (seedFn : Nat → G)
    (pf : Portfolio) (params : ReturnProfiles) (days : Nat) (s : Nat) :
    Option ℚ :=
  (simulate gaussNext seedFn s pf params days).map
    (fun r => portfolio_value r - portfolio_value pf)

/-- The parallel trial runner: each seed of the RDD is mapped to its
trial's outcome; no state is shared between trials. -/
def runTrials {G : Type} (gaussNext : G → ℚ × G) (seedFn : Nat → G)
    (pf : Portfolio) (params : ReturnProfiles) (days : Nat)
    (seedList : List Nat) : List (Option ℚ) :=
  seedList.map (trialOutcome gaussNext seedFn pf params days)

/-- A list comprehension that indexes `rs` at each position of `idx` in
order, propagating the `IndexError` (`none`) of an out-of-range index. -/
def getAll {α : Type} (rs : List α) : List Nat → Option (List α)
  | [] => some []
  | i :: t =>
    match rs.get? i, getAll rs t with
    | some v, some out => some (v :: out)
    | _, _ => none

/-- Source: `eleven_results = [simulated_results[int((len(simulated_results)
- 1) * i / 10)] for i in range(11)]`.  `int` truncation of the exact
nonnegative quotient is `Nat` floor division; an out-of-range index
(`IndexError` on the empty list) is the `none` case. -/
def eleven_results {α : Type} (rs : List α) : Option (List α) :=
  getAll rs ((List.range 11).map (fun i => (rs.length - 1) * i / 10))

/-- The same selection at the index formula of the claim's words,
`round((L - 1) * i / 10)` (rounding to nearest). -/
def eleven_results_round {α : Type} (rs : List α) : Option (List α) :=
  getAll rs ((List.range 11).map
    (fun i => (round (((rs.length : ℚ) - 1) * i / 10)).toNat))

/-- Source: `simulated_values[int(len(simulated_values) * percentage_var)]`
with `alpha` the risk fraction `percentage_var`; for `0 ≤ alpha` the
`int` truncation is the floor. -/
def var_value (sorted_values : List ℚ) (alpha : ℚ) : Option ℚ :=
  sorted_values.get? (⌊(sorted_values.length : ℚ) * alpha⌋).toNat

/-!
Heap-level model, for the frame property (the caller's dictionary is
never mutated).  Every dictionary operation the trial functions perform
is either a read or a fresh allocation — `pf.copy()` and the
`dict([...])` built by `simstep` allocate new objects, and the loop
variable is rebound, not updated in place — so the heap is a list of
portfolio objects addressed by index, and allocation appends.
-/

/-- The heap of portfolio dictionary objects; a reference is an index. -/
abbrev Heap : Type := List Portfolio

/-- `h'` extends `h`: every object of `h` is still at its address with
its contents unchanged. -/
def HeapExtends (h h' : Heap) : Prop :=
  h.length ≤ h'.length ∧ ∀ j, j < h.length → h'.get? j = h.get? j

/-- `simstep` at heap level: read the dictionary at `r`, build the new
one, allocate it (append) and return its address. -/
def simstepH {G : Type} (gaussNext : G → ℚ × G) (h : Heap) (r : Nat)
    (params : ReturnProfiles) (g : G) : Option (Heap × Nat × G) :=
  match h.get? r with
  | none => none
  | some pf =>
    match simstep gaussNext pf params g with
    | none => none
    | some pg => some (h ++ [pg.1], h.length, pg.2)

/-- The day loop of `simulate` at heap level, rebinding the local
reference to each freshly allocated dictionary. -/
def simGoH {G : Type} (gaussNext : G → ℚ × G) (params : ReturnProfiles) :
    Heap → G → Nat → Nat → Option (Heap × Nat × G)
  | h, g, r, 0 => some (h, r, g)
  | h, g, r, d + 1 =>
    match simstepH gaussNext h r params g with
    | none => none
    | some x => simGoH gaussNext params x.1 x.2.2 x.2.1 d

/-- `simulate` at heap level: `pf = pf.copy()` allocates a fresh
dictionary with the caller's entries, then the day loop runs on that
private copy; the result is the final portfolio's contents. -/
def simulateH {G : Type} (gaussNext : G → ℚ × G) (seedFn : Nat → G)
    (seed : Nat) (h : Heap) (r : Nat) (params : ReturnProfiles)
    (days : Nat) : Option (Heap × Portfolio) :=
  match h.get? r with
  | none => none
  | some pf =>
    match simGoH gaussNext params (h ++ [pf]) (seedFn seed) h.length days with
    | none => none
    | some x => (x.1.get? x.2.1).map (fun res => (x.1, res))

/-- The day loop of `simulate_with_history` at heap level: after each
step, `portfolio_value` reads the just-allocated dictionary and the
(immutable) value is appended to the history. -/
def histGoH {G : Type} (gaussNext : G → ℚ × G) (params : ReturnProfiles) :
    Heap → G → Nat → Nat → Option (Heap × Nat × G × List ℚ)
  | h, g, r, 0 => some (h, r, g, [])
  | h, g, r, d + 1 =>
    match simstepH gaussNext h r params g with
    | none => none
    | some x =>
      match histGoH gaussNext params x.1 x.2.2 x.2.1 d with
      | none => none
      | some y =>
        (x.1.get? x.2.1).map
          (fun pf1 => (y.1, y.2.1, y.2.2.1, portfolio_value pf1 :: y.2.2.2))

/-- `simulate_with_history` at heap level. -/
def simulate_with_historyH {G : Type} (gaussNext : G → ℚ × G)
    (seedFn : Nat → G) (seed : Nat) (h : Heap) (r : Nat)
    (params : ReturnProfiles) (days : Nat) : Option (Heap × List ℚ) :=
  match h.get? r with
  | none => none
  | some pf =>
    match histGoH gaussNext params (h ++ [pf]) (seedFn seed) h.length days with
    | none => none
    | some x => some (x.1, portfolio_value pf :: x.2.2.2)

/-! ### Helper lemmas -/

theorem randint_le (hi draw : Nat) : randint 0 hi draw ≤ hi := by
  have h : draw % (hi + 1 - 0) < hi + 1 - 0 := Nat.mod_lt _ (by omega)
  simp only [randint, Nat.zero_add]
  omega

theorem seeds_length (n : Nat) (draws : Nat → Nat) :
    (seeds n draws).length = n := by
  simp [seeds]

theorem seeds_mem_le {n : Nat} {draws : Nat → Nat} :
    ∀ x ∈ seeds n draws, x ≤ seedBound := by
  intro x hx
  simp only [seeds, List.mem_map, List.mem_range] at hx
  obtain ⟨i, _, rfl⟩ := hx
  exact randint_le seedBound (draws i)

theorem seedBound_eq : seedBound = 2 ^ 31 := by decide

/-! ### C1: seed generation range -/

/-- C1 counterexample: the claim says every value of `[0, 2^32)` is a
possible seed, but `2^31 + 1` can never be returned — `randint(0,
1 << 32 - 1)` draws from `[0, 2^31]` because the Python expression
parses as `1 << (32 - 1)`. -/
theorem seeds_full_range_counterexample :
    ¬ ∃ draws : Nat → Nat, 2 ^ 31 + 1 ∈ seeds 1 draws := by
  rintro ⟨draws, hm⟩
  have h := seeds_mem_le _ hm
  rw [seedBound_eq] at h
  omega

/-- C1 amended: for every requested trial count `n`, `seeds n` returns a
list of exactly `n` integers, each drawn uniformly from `[0, 2^31]`
inclusive — so every returned seed is `< 2^32`, and every value of
`[0, 2^31]` (but no larger value) is possible. -/
theorem seeds_range_amended :
    (∀ (n : Nat) (draws : Nat → Nat),
        (seeds n draws).length = n ∧
          ∀ x ∈ seeds n draws, x ≤ 2 ^ 31 ∧ x < 2 ^ 32) ∧
      ∀ v, v ≤ 2 ^ 31 → ∀ n, 1 ≤ n → ∃ draws : Nat → Nat, v ∈ seeds n draws := by
  constructor
  · intro n draws
    refine ⟨seeds_length n draws, fun x hx => ?_⟩
    have h := seeds_mem_le x hx
    rw [seedBound_eq] at h
    exact ⟨h, by omega⟩
  · intro v hv n hn
    refine ⟨fun _ => v, ?_⟩
    have hval : randint 0 seedBound v = v := by
      simp only [randint, Nat.zero_add]
      exact Nat.mod_eq_of_lt (by rw [seedBound_eq]; omega)
    simp only [seeds, List.mem_map]
    exact ⟨0, List.mem_range.mpr (by omega), hval⟩

/-- Witness for C1's amended theorem at concrete inputs. -/
theorem seeds_range_amended_witness :
    ((seeds 3 (fun i => i * 5)).length = 3 ∧
        ∀ x ∈ seeds 3 (fun i => i * 5), x ≤ 2 ^ 31 ∧ x < 2 ^ 32) ∧
      ∃ draws : Nat → Nat, 2 ^ 31 ∈ seeds 2 draws :=
  ⟨seeds_range_amended.1 3 (fun i => i * 5),
    seeds_range_amended.2 (2 ^ 31) (by decide) 2 (by decide)⟩

theorem simstep_keys {G : Type} (gaussNext : G → ℚ × G)
    (params : ReturnProfiles) :
    ∀ (pf : Portfolio) (g : G) (pf' : Portfolio) (g' : G),
      simstep gaussNext pf params g = some (pf', g') →
        pf'.map Prod.fst = pf.map Prod.fst := by
  intro pf
  induction pf with
  | nil =>
    intro g pf' g' h
    simp only [simstep, Option.some.injEq, Prod.mk.injEq] at h
    rw [← h.1]
  | cons sv rest ih =>
    obtain ⟨s, v⟩ := sv
    intro g pf' g' h
    simp only [simstep] at h
    split at h
    · exact absurd h (by simp)
    next ms _ =>
      split at h
      · exact absurd h (by simp)
      next rg hrg =>
        simp only [Option.some.injEq, Prod.mk.injEq] at h
        rw [← h.1]
        simp [ih _ _ _ hrg]

theorem simstep_none_of_missing {G : Type} (gaussNext : G → ℚ × G)
    (params : ReturnProfiles) {s₀ : String} {q₀ : ℚ} :
    ∀ (pf : Portfolio) (g : G), (s₀, q₀) ∈ pf → params s₀ = none →
      simstep gaussNext pf params g = none := by
  intro pf
  induction pf with
  | nil => intro g hm; exact absurd hm (List.not_mem_nil _)
  | cons sv rest ih =>
    obtain ⟨s, v⟩ := sv
    intro g hm hnone
    rcases List.mem_cons.mp hm with heq | hrest
    · obtain ⟨rfl, rfl⟩ := Prod.mk.injEq .. ▸ heq
      simp [simstep, hnone]
    · simp only [simstep]
      split
      · rfl
      next ms _ =>
        rw [ih _ hrest hnone]

theorem simstep_isSome_of_covered {G : Type} (gaussNext : G → ℚ × G)
    (params : ReturnProfiles) :
    ∀ (pf : Portfolio) (g : G),
      (∀ s q, (s, q) ∈ pf → (params s).isSome) →
        ∃ pg, simstep gaussNext pf params g = some pg := by
  intro pf
  induction pf with
  | nil => intro g _; exact ⟨([], g), rfl⟩
  | cons sv rest ih =>
    obtain ⟨s, v⟩ := sv
    intro g hcov
    obtain ⟨ms, hms⟩ :=
      Option.isSome_iff_exists.mp (hcov s v (List.mem_cons_self _ _))
    obtain ⟨rg, hrg⟩ :=
      ih (normalvariate gaussNext g ms.1 ms.2).2
        (fun s' q' hm => hcov s' q' (List.mem_cons_of_mem _ hm))
    refine ⟨((s, (((normalvariate gaussNext g ms.1 ms.2).1 + 100) / 100) * v) :: rg.1,
      rg.2), ?_⟩
    simp only [simstep, hms, hrg]

theorem covered_of_keys_eq (params : ReturnProfiles) {pf pf' : Portfolio}
    (hk : pf'.map Prod.fst = pf.map Prod.fst)
    (hc : ∀ s q, (s, q) ∈ pf → (params s).isSome) :
    ∀ s q, (s, q) ∈ pf' → (params s).isSome := by
  intro s q hm
  have hs : s ∈ pf'.map Prod.fst := List.mem_map.mpr ⟨(s, q), hm, rfl⟩
  rw [hk] at hs
  obtain ⟨⟨s', q'⟩, hm', rfl⟩ := List.mem_map.mp hs
  exact hc s' q' hm'

theorem simGo_keys {G : Type} (gaussNext : G → ℚ × G)
    (params : ReturnProfiles) :
    ∀ (days : Nat) (g : G) (pf res : Portfolio),
      simGo gaussNext params g pf days = some res →
        res.map Prod.fst = pf.map Prod.fst := by
  intro days
  induction days with
  | zero =>
    intro g pf res h
    simp only [simGo, Option.some.injEq] at h
    rw [h]
  | succ d ih =>
    intro g pf res h
    simp only [simGo] at h
    split at h
    · exact absurd h (by simp)
    next pg hpg =>
      rw [ih _ _ _ h, simstep_keys gaussNext params pf g pg.1 pg.2 (by
        rw [← hpg])]

theorem simGo_isSome_of_covered {G : Type} (gaussNext : G → ℚ × G)
    (params : ReturnProfiles) :
    ∀ (days : Nat) (g : G) (pf : Portfolio),
      (∀ s q, (s, q) ∈ pf → (params s).isSome) →
        (simGo gaussNext params g pf days).isSome := by
  intro days
  induction days with
  | zero => intro g pf _; simp [simGo]
  | succ d ih =>
    intro g pf hcov
    obtain ⟨pg, hpg⟩ := simstep_isSome_of_covered gaussNext params pf g hcov
    simp only [simGo, hpg]
    exact ih pg.2 pg.1
      (covered_of_keys_eq params
        (simstep_keys gaussNext params pf g pg.1 pg.2 (by rw [← hpg])) hcov)

/-! ### C10: key-set preservation -/

/-- C10: `simstep` preserves the portfolio's symbol list exactly (same
symbols, same order, so each appears exactly once when the input's
symbols are distinct), and hence `simulate` returns a portfolio over
the same symbols for every day count. -/
theorem keys_invariant {G : Type} (gaussNext : G → ℚ × G) (seedFn : Nat → G)
    (seed : Nat) (pf : Portfolio) (params : ReturnProfiles) (g : G)
    (days : Nat) :
    (∀ pf' g', simstep gaussNext pf params g = some (pf', g') →
        pf'.map Prod.fst = pf.map Prod.fst ∧
          ((pf.map Prod.fst).Nodup → (pf'.map Prod.fst).Nodup)) ∧
      ∀ res, simulate gaussNext seedFn seed pf params days = some res →
        res.map Prod.fst = pf.map Prod.fst := by
  constructor
  · intro pf' g' h
    have hk := simstep_keys gaussNext params pf g pf' g' h
    exact ⟨hk, fun hnd => hk ▸ hnd⟩
  · intro res h
    exact simGo_keys gaussNext params days (seedFn seed) pf res h

/-- Witness for C10 at concrete inputs: one step of the one-security
portfolio with profile mean 1, stddev 0. -/
theorem keys_invariant_witness :
    [("AAA", (101 : ℚ))].map Prod.fst = [("AAA", (100 : ℚ))].map Prod.fst :=
  (((keys_invariant (fun _ : Unit => ((0 : ℚ), ())) (fun _ => ()) 0
      [("AAA", 100)] (fun _ => some (1, 0)) () 1).1)
    [("AAA", 101)] () (by
      simp only [simstep, normalvariate, Option.some.injEq, Prod.mk.injEq]
      norm_num)).1

/-! ### C8: missing profile is a fatal lookup error -/

/-- C8: when some held symbol has no return profile and at least one day
is simulated, `simulate` fails with the lookup error (no skipping, no
partial result); with zero days, or when every held symbol has a
profile entry, no such error occurs. -/
theorem missing_profile_error {G : Type} (gaussNext : G → ℚ × G)
    (seedFn : Nat → G) (seed : Nat) (pf : Portfolio)
    (params : ReturnProfiles) (days : Nat) :
    ((∃ s q, (s, q) ∈ pf ∧ params s = none) → 1 ≤ days →
        simulate gaussNext seedFn seed pf params days = none) ∧
      ((days = 0 ∨ ∀ s q, (s, q) ∈ pf → (params s).isSome) →
        (simulate gaussNext seedFn seed pf params days).isSome) := by
  constructor
  · rintro ⟨s, q, hm, hnone⟩ hd
    obtain ⟨d, rfl⟩ : ∃ d, days = d + 1 :=
      ⟨days - 1, by omega⟩
    simp only [simulate, simGo,
      simstep_none_of_missing gaussNext params pf (seedFn seed) hm hnone]
  · rintro (rfl | hcov)
    · simp [simulate, simGo]
    · exact simGo_isSome_of_covered gaussNext params days (seedFn seed) pf hcov

/-- Witness for C8 at concrete inputs: a held symbol with no profile
fails a one-day run; the fully covered portfolio succeeds. -/
theorem missing_profile_error_witness :
    simulate (fun _ : Unit => ((0 : ℚ), ())) (fun _ => ()) 0
        [("AAA", (100 : ℚ))] (fun _ => none) 1 = none ∧
      (simulate (fun _ : Unit => ((0 : ℚ), ())) (fun _ => ()) 0
          [("AAA", (100 : ℚ))] (fun _ => some (1, 0)) 1).isSome :=
  ⟨(missing_profile_error (fun _ : Unit => ((0 : ℚ), ())) (fun _ => ()) 0
      [("AAA", 100)] (fun _ => none) 1).1
        ⟨"AAA", 100, List.mem_cons_self _ _, rfl⟩ (by decide),
    (missing_profile_error (fun _ : Unit => ((0 : ℚ), ())) (fun _ => ()) 0
      [("AAA", 100)] (fun _ => some (1, 0)) 1).2
        (Or.inr (fun _ _ _ => rfl))⟩

/-! ### C7: zero-day identity -/

/-- C7: a zero-day run is the identity — `simulate(seed, pf, params, 0)`
returns (a copy equal to) `pf`, and its `portfolio_value` is unchanged. -/
theorem simulate_zero_days_identity {G : Type} (gaussNext : G → ℚ × G)
    (seedFn : Nat → G) (seed : Nat) (pf : Portfolio)
    (params : ReturnProfiles) :
    simulate gaussNext seedFn seed pf params 0 = some pf ∧
      (simulate gaussNext seedFn seed pf params 0).map portfolio_value =
        some (portfolio_value pf) :=
  ⟨rfl, rfl⟩

theorem histGo_simGo {G : Type} (gaussNext : G → ℚ × G)
    (params : ReturnProfiles) :
    ∀ (days : Nat) (g : G) (pf : Portfolio) (t : List ℚ),
      histGo gaussNext params g pf days = some t →
        t.length = days ∧
          ∃ pfN, simGo gaussNext params g pf days = some pfN ∧
            (portfolio_value pf :: t).getLast? = some (portfolio_value pfN) := by
  intro days
  induction days with
  | zero =>
    intro g pf t h
    simp only [histGo, Option.some.injEq] at h
    subst h
    exact ⟨rfl, pf, rfl, rfl⟩
  | succ d ih =>
    intro g pf t h
    simp only [histGo] at h
    split at h
    · exact absurd h (by simp)
    next pg hpg =>
      simp only [Option.map_eq_some'] at h
      obtain ⟨t', ht', rfl⟩ := h
      obtain ⟨hlen, pfN, hsim, hlast⟩ := ih pg.2 pg.1 t' ht'
      refine ⟨by simp [hlen], pfN, ?_, ?_⟩
      · simp only [simGo, hpg]
        exact hsim
      · rw [List.getLast?_cons_cons]
        exact hlast

/-! ### C4: history/final consistency -/

/-- C4: a successful `simulate_with_history(seed, pf, params, N)` has
length `N + 1`, its first element is `portfolio_value pf` (the
pre-simulation value) and its last element is the `portfolio_value` of
`simulate(seed, pf, params, N)` run with the same arguments. -/
theorem history_final_consistency {G : Type} (gaussNext : G → ℚ × G)
    (seedFn : Nat → G) (seed : Nat) (pf : Portfolio)
    (params : ReturnProfiles) (days : Nat) (h : List ℚ)
    (hh : simulate_with_history gaussNext seedFn seed pf params days = some h) :
    h.length = days + 1 ∧ h.head? = some (portfolio_value pf) ∧
      ∃ pfN, simulate gaussNext seedFn seed pf params days = some pfN ∧
        h.getLast? = some (portfolio_value pfN) := by
  simp only [simulate_with_history, Option.map_eq_some'] at hh
  obtain ⟨t, ht, rfl⟩ := hh
  obtain ⟨hlen, pfN, hsim, hlast⟩ :=
    histGo_simGo gaussNext params days (seedFn seed) pf t ht
  exact ⟨by simp [hlen], rfl, pfN, hsim, hlast⟩

/-- Witness for C4 at concrete inputs: two zero-drift days over one
security. -/
theorem history_final_consistency_witness :
    [(100 : ℚ), 100, 100].length = 2 + 1 ∧
      [(100 : ℚ), 100, 100].head? = some (portfolio_value [("AAA", (100 : ℚ))]) ∧
      ∃ pfN, simulate (fun _ : Unit => ((0 : ℚ), ())) (fun _ => ()) 7
          [("AAA", (100 : ℚ))] (fun _ => some (0, 0)) 2 = some pfN ∧
        [(100 : ℚ), 100, 100].getLast? = some (portfolio_value pfN) :=
  history_final_consistency (fun _ : Unit => ((0 : ℚ), ())) (fun _ => ()) 7
    [("AAA", 100)] (fun _ => some (0, 0)) 2 [100, 100, 100] (by
      show (histGo _ _ _ _ 2).map _ = _
      simp only [show (2 : Nat) = 0 + 1 + 1 from rfl, histGo, simstep,
        normalvariate, portfolio_value]
      norm_num)

/-! ### C5: per-day step formula and exact zero-stddev scenarios -/

theorem simstep_entry_zero_stddev {G : Type} (gaussNext : G → ℚ × G)
    (params : ReturnProfiles) :
    ∀ (pf : Portfolio) (g : G) (pf' : Portfolio) (g' : G) (i : Nat)
      (s : String) (q m : ℚ),
      simstep gaussNext pf params g = some (pf', g') →
        pf.get? i = some (s, q) → params s = some (m, 0) →
          pf'.get? i = some (s, (m + 100) / 100 * q) := by
  intro pf
  induction pf with
  | nil => intro g pf' g' i s q m _ hi; simp at hi
  | cons sv rest ih =>
    obtain ⟨s₀, v₀⟩ := sv
    intro g pf' g' i s q m h hi hm
    simp only [simstep] at h
    split at h
    · exact absurd h (by simp)
    next ms hms =>
      split at h
      · exact absurd h (by simp)
      next rg hrg =>
        simp only [Option.some.injEq, Prod.mk.injEq] at h
        obtain ⟨rfl, -⟩ := h
        match i with
        | 0 =>
          simp only [List.get?_cons_zero, Option.some.injEq, Prod.mk.injEq] at hi ⊢
          obtain ⟨rfl, rfl⟩ := hi
          rw [hms] at hm
          obtain rfl : ms = (m, 0) := Option.some.inj hm
          refine ⟨rfl, ?_⟩
          simp [normalvariate]
        | i + 1 =>
          simp only [List.get?_cons_succ] at hi ⊢
          exact ih _ _ _ i s q m hrg hi hm

/-- C5: each day multiplies every held quantity by
`(x + 100) / 100` with `x = normalvariate(mean, stddev)`; in the
zero-stddev case `x` is exactly the mean, so with portfolio
`{"AAA": 100}` and profile `("AAA", (1, 0))` one day yields exactly 101
for every seed, and with profile `("AAA", (0, 0))` five days yield
exactly 100 for every seed. -/
theorem simstep_scenarios {G : Type} (gaussNext : G → ℚ × G)
    (seedFn : Nat → G) :
    (∀ (pf : Portfolio) (params : ReturnProfiles) (g : G) (pf' : Portfolio)
        (g' : G) (i : Nat) (s : String) (q m : ℚ),
        simstep gaussNext pf params g = some (pf', g') →
          pf.get? i = some (s, q) → params s = some (m, 0) →
            pf'.get? i = some (s, (m + 100) / 100 * q)) ∧
      (∀ seed : Nat,
        simulate gaussNext seedFn seed [("AAA", 100)]
            (fun s => if s = "AAA" then some (1, 0) else none) 1 =
          some [("AAA", 101)] ∧
        (simulate gaussNext seedFn seed [("AAA", 100)]
            (fun s => if s = "AAA" then some (1, 0) else none) 1).map
          portfolio_value = some 101) ∧
      ∀ seed : Nat,
        simulate gaussNext seedFn seed [("AAA", 100)]
            (fun s => if s = "AAA" then some (0, 0) else none) 5 =
          some [("AAA", 100)] ∧
        (simulate gaussNext seedFn seed [("AAA", 100)]
            (fun s => if s = "AAA" then some (0, 0) else none) 5).map
          portfolio_value = some 100 := by
  refine ⟨fun pf params => simstep_entry_zero_stddev gaussNext params pf,
    fun seed => ?_, fun seed => ?_⟩
  · have h : simulate gaussNext seedFn seed [("AAA", 100)]
        (fun s => if s = "AAA" then some (1, 0) else none) 1 =
          some [("AAA", 101)] := by
      have hs : simstep gaussNext [("AAA", (100 : ℚ))]
          (fun s => if s = "AAA" then some ((1 : ℚ), (0 : ℚ)) else none)
          (seedFn seed) =
            some ([("AAA", (101 : ℚ))], (gaussNext (seedFn seed)).2) := by
        norm_num [simstep, normalvariate]
      simp only [simulate, show (1 : Nat) = 0 + 1 from rfl, simGo, hs]
    exact ⟨h, by rw [h]; norm_num [portfolio_value]⟩
  · have hgo : ∀ (d : Nat) (g : G),
        simGo gaussNext
            (fun s => if s = "AAA" then some ((0 : ℚ), (0 : ℚ)) else none)
            g [("AAA", (100 : ℚ))] d = some [("AAA", (100 : ℚ))] := by
      intro d
      induction d with
      | zero => intro g; rfl
      | succ n ih =>
        intro g
        have hs : simstep gaussNext [("AAA", (100 : ℚ))]
            (fun s => if s = "AAA" then some ((0 : ℚ), (0 : ℚ)) else none) g =
              some ([("AAA", (100 : ℚ))], (gaussNext g).2) := by
          norm_num [simstep, normalvariate]
        simp only [simGo, hs]
        exact ih _
    have h : simulate gaussNext seedFn seed [("AAA", 100)]
        (fun s => if s = "AAA" then some (0, 0) else none) 5 =
          some [("AAA", 100)] := hgo 5 (seedFn seed)
    exact ⟨h, by rw [h]; norm_num [portfolio_value]⟩

/-- Witness for C5 at concrete inputs: the per-entry formula applied to
one step of a one-security portfolio with mean 2, stddev 0. -/
theorem simstep_scenarios_witness :
    [("X", (51 : ℚ))].get? 0 = some ("X", (2 + 100) / 100 * 50) :=
  (simstep_scenarios (fun _ : Unit => ((0 : ℚ), ())) (fun _ => ())).1
    [("X", 50)] (fun _ => some (2, 0)) () [("X", 51)] () 0 "X" 50 2
    (by
      simp only [simstep, normalvariate, Option.some.injEq, Prod.mk.injEq]
      norm_num)
    rfl rfl

/-! ### C6: determinism and trial independence -/

/-- C6: each trial's outcome is a function of its own seed and the shared
read-only configuration alone — the runner's outcome for a seed `s` is
`trialOutcome s` no matter which other trials run before or after it,
and permuting the seed list merely permutes the outcomes. -/
theorem trials_independent {G : Type} (gaussNext : G → ℚ × G)
    (seedFn : Nat → G) (pf : Portfolio) (params : ReturnProfiles)
    (days : Nat) :
    (∀ (l₁ l₂ : List Nat) (s : Nat),
        runTrials gaussNext seedFn pf params days (l₁ ++ s :: l₂) =
          runTrials gaussNext seedFn pf params days l₁ ++
            trialOutcome gaussNext seedFn pf params days s ::
              runTrials gaussNext seedFn pf params days l₂) ∧
      ∀ l₁ l₂ : List Nat, l₁.Perm l₂ →
        (runTrials gaussNext seedFn pf params days l₁).Perm
          (runTrials gaussNext seedFn pf params days l₂) := by
  constructor
  · intro l₁ l₂ s
    simp [runTrials]
  · intro l₁ l₂ hp
    exact hp.map _

/-- Witness for C6 at concrete inputs: swapping two seeds permutes the
outcome list. -/
theorem trials_independent_witness :
    (runTrials (fun _ : Unit => ((0 : ℚ), ())) (fun _ => ())
        [("AAA", (100 : ℚ))] (fun _ => some (0, 0)) 1 [3, 4]).Perm
      (runTrials (fun _ : Unit => ((0 : ℚ), ())) (fun _ => ())
        [("AAA", (100 : ℚ))] (fun _ => some (0, 0)) 1 [4, 3]) :=
  (trials_independent (fun _ : Unit => ((0 : ℚ), ())) (fun _ => ())
      [("AAA", 100)] (fun _ => some (0, 0)) 1).2 [3, 4] [4, 3]
    (List.Perm.swap 4 3 [])

/-! ### C2: decile sampling index formula -/

theorem getAll_spec {α : Type} (rs : List α) :
    ∀ idx : List Nat, (∀ i ∈ idx, i < rs.length) →
      ∃ out, getAll rs idx = some out ∧ out.length = idx.length ∧
        ∀ j, out.get? j = (idx.get? j).bind rs.get? := by
  intro idx
  induction idx with
  | nil =>
    intro _
    exact ⟨[], rfl, rfl, fun j => by cases j <;> rfl⟩
  | cons a t ih =>
    intro h
    obtain ⟨out, hout, hlen, hget⟩ :=
      ih (fun i hi => h i (List.mem_cons_of_mem _ hi))
    have ha : a < rs.length := h a (List.mem_cons_self _ _)
    refine ⟨rs.get ⟨a, ha⟩ :: out, ?_, by simp [hlen], ?_⟩
    · simp only [getAll, List.get?_eq_get ha, hout]
    · intro j
      match j with
      | 0 => simp [List.get?_eq_get ha]
      | j + 1 => simpa using hget j

/-- C2 counterexample: on the sorted 13-pair list `(0,0), …, (12,12)`,
the fourth selected pair (`i = 3`) is the one at truncated index
`int(12 * 3 / 10) = 3`, not at the claimed rounded index
`round(12 * 3 / 10) = 4` (no half-way tie is involved). -/
theorem eleven_results_round_counterexample :
    (eleven_results [((0 : Nat), (0 : Nat)), (1, 1), (2, 2), (3, 3), (4, 4),
        (5, 5), (6, 6), (7, 7), (8, 8), (9, 9), (10, 10), (11, 11),
        (12, 12)]).map (fun l => l.get? 3) = some (some (3, 3)) ∧
      [((0 : Nat), (0 : Nat)), (1, 1), (2, 2), (3, 3), (4, 4), (5, 5),
        (6, 6), (7, 7), (8, 8), (9, 9), (10, 10), (11, 11), (12, 12)].get?
          (round (((13 : ℚ) - 1) * 3 / 10)).toNat = some (4, 4) ∧
      ((3, 3) : Nat × Nat) ≠ (4, 4) := by
  refine ⟨by decide, ?_, by decide⟩
  have h4 : (round (((13 : ℚ) - 1) * 3 / 10)).toNat = 4 := by
    have hr : round (((13 : ℚ) - 1) * 3 / 10) = 4 := by norm_num [round_eq]
    rw [hr]
    decide
  rw [h4]
  decide

/-- C2 amended: on every `(outcome, seed)` list of length `L ≥ 1`,
decile sampling selects exactly `11` pairs, the `i`-th taken at sorted
index `int((L - 1) * i / 10)` — floor, not round — for `i = 0..10`;
duplicate indices at small `L` are tolerated. -/
theorem eleven_results_floor_index {α : Type} (rs : List α)
    (hL : 1 ≤ rs.length) :
    ∃ l, eleven_results rs = some l ∧ l.length = 11 ∧
      ∀ i, i < 11 → l.get? i = rs.get? ((rs.length - 1) * i / 10) := by
  have hb : ∀ j ∈ (List.range 11).map (fun i => (rs.length - 1) * i / 10),
      j < rs.length := by
    intro j hj
    simp only [List.mem_map, List.mem_range] at hj
    obtain ⟨i, hi, rfl⟩ := hj
    have h1 : (rs.length - 1) * i ≤ (rs.length - 1) * 10 :=
      Nat.mul_le_mul_left _ (by omega)
    have h2 : (rs.length - 1) * i / 10 ≤ (rs.length - 1) * 10 / 10 :=
      Nat.div_le_div_right h1
    rw [Nat.mul_div_cancel _ (by norm_num)] at h2
    omega
  obtain ⟨out, hout, hlen, hget⟩ := getAll_spec rs _ hb
  refine ⟨out, hout, by simp [hlen], ?_⟩
  intro i hi
  rw [hget i, List.get?_map, List.get?_range hi]
  rfl

/-- Witness for C2's amended theorem on a one-pair list (all eleven
indices collapse to 0). -/
theorem eleven_results_floor_index_witness :
    ∃ l, eleven_results [((5 : Nat), (7 : Nat))] = some l ∧ l.length = 11 ∧
      ∀ i, i < 11 → l.get? i =
        [((5 : Nat), (7 : Nat))].get?
          (([((5 : Nat), (7 : Nat))].length - 1) * i / 10) :=
  eleven_results_floor_index [((5 : Nat), (7 : Nat))] (by decide)

/-! ### C3: VaR extraction -/

theorem sorted_get_zero_le (l : List ℚ) (hsort : l.Sorted (· ≤ ·))
    (i : Fin l.length) (hi0 : (i : Nat) = 0) : ∀ x ∈ l, l.get i ≤ x := by
  rcases l with _ | ⟨a, t⟩
  · exact i.elim0
  · obtain ⟨iv, hlt⟩ := i
    simp only at hi0
    subst hi0
    intro x hx
    rcases List.mem_cons.mp hx with rfl | hxt
    · exact le_refl _
    · exact (List.sorted_cons.mp hsort).1 x hxt

/-- C3: for a sorted ascending outcome list of length `L ≥ 1` and a risk
fraction `alpha ∈ [0, 1)`, the reported VaR is the element at sorted
index `floor(L * alpha)` (always in range); `alpha = 0` yields the
minimum observed outcome, and at `L = 10000`, `alpha = 1/20` the result
is `sorted_outcomes[500]`. -/
theorem var_extraction_correct (l : List ℚ) (alpha : ℚ)
    (hsort : l.Sorted (· ≤ ·)) (hL : 1 ≤ l.length) (h0 : 0 ≤ alpha)
    (h1 : alpha < 1) :
    ∃ v, var_value l alpha = some v ∧
      l.get? (⌊(l.length : ℚ) * alpha⌋).toNat = some v ∧
      (alpha = 0 → ∀ x ∈ l, v ≤ x) ∧
      (l.length = 10000 → alpha = 1 / 20 → var_value l alpha = l.get? 500) := by
  have hflt : ⌊(l.length : ℚ) * alpha⌋ < (l.length : ℤ) := by
    rw [Int.floor_lt]
    push_cast
    exact mul_lt_of_lt_one_right (by exact_mod_cast Nat.lt_of_lt_of_le Nat.zero_lt_one hL) h1
  have hfge : 0 ≤ ⌊(l.length : ℚ) * alpha⌋ :=
    Int.floor_nonneg.mpr (mul_nonneg (by positivity) h0)
  have hi : (⌊(l.length : ℚ) * alpha⌋).toNat < l.length := by omega
  refine ⟨l.get ⟨_, hi⟩, List.get?_eq_get hi, List.get?_eq_get hi, ?_, ?_⟩
  · rintro rfl x hx
    exact sorted_get_zero_le l hsort _ (by simp) x hx
  · rintro hlen rfl
    have hf : (⌊(l.length : ℚ) * (1 / 20)⌋).toNat = 500 := by
      have hr : ⌊(l.length : ℚ) * (1 / 20)⌋ = 500 := by
        rw [hlen]
        norm_num
      rw [hr]
      decide
    rw [var_value, hf]

/-- Witness for C3 at the one-element sorted list with `alpha = 0`. -/
theorem var_extraction_correct_witness :
    ∃ v, var_value [(5 : ℚ)] 0 = some v ∧
      [(5 : ℚ)].get? (⌊(([(5 : ℚ)].length : ℚ)) * 0⌋).toNat = some v ∧
      ((0 : ℚ) = 0 → ∀ x ∈ [(5 : ℚ)], v ≤ x) ∧
      ([(5 : ℚ)].length = 10000 → (0 : ℚ) = 1 / 20 →
        var_value [(5 : ℚ)] 0 = [(5 : ℚ)].get? 500) :=
  var_extraction_correct [5] 0 (List.sorted_singleton 5) (by decide)
    le_rfl zero_lt_one

/-! ### C9: the caller's portfolio is never mutated -/

theorem heapExtends_trans {h₁ h₂ h₃ : Heap} (a : HeapExtends h₁ h₂)
    (b : HeapExtends h₂ h₃) : HeapExtends h₁ h₃ :=
  ⟨le_trans a.1 b.1, fun j hj => (b.2 j (lt_of_lt_of_le hj a.1)).trans (a.2 j hj)⟩

theorem heapExtends_append (h : Heap) (l : List Portfolio) :
    HeapExtends h (h ++ l) :=
  ⟨by simp, fun j hj => List.get?_append hj⟩

theorem simstepH_extends {G : Type} {gaussNext : G → ℚ × G} {h : Heap}
    {r : Nat} {params : ReturnProfiles} {g : G} {x : Heap × Nat × G}
    (hx : simstepH gaussNext h r params g = some x) : HeapExtends h x.1 := by
  simp only [simstepH] at hx
  split at hx
  · exact absurd hx (by simp)
  split at hx
  · exact absurd hx (by simp)
  obtain rfl := Option.some.inj hx
  exact heapExtends_append h _

theorem simGoH_extends {G : Type} (gaussNext : G → ℚ × G)
    (params : ReturnProfiles) :
    ∀ (d : Nat) (h : Heap) (g : G) (r : Nat) (x : Heap × Nat × G),
      simGoH gaussNext params h g r d = some x → HeapExtends h x.1 := by
  intro d
  induction d with
  | zero =>
    intro h g r x hx
    obtain rfl := Option.some.inj hx
    exact ⟨le_refl _, fun j _ => rfl⟩
  | succ n ih =>
    intro h g r x hx
    simp only [simGoH] at hx
    split at hx
    · exact absurd hx (by simp)
    next y hy =>
      exact heapExtends_trans (simstepH_extends hy) (ih _ _ _ _ hx)

theorem histGoH_extends {G : Type} (gaussNext : G → ℚ × G)
    (params : ReturnProfiles) :
    ∀ (d : Nat) (h : Heap) (g : G) (r : Nat) (x : Heap × Nat × G × List ℚ),
      histGoH gaussNext params h g r d = some x → HeapExtends h x.1 := by
  intro d
  induction d with
  | zero =>
    intro h g r x hx
    obtain rfl := Option.some.inj hx
    exact ⟨le_refl _, fun j _ => rfl⟩
  | succ n ih =>
    intro h g r x hx
    simp only [histGoH] at hx
    split at hx
    · exact absurd hx (by simp)
    next y hy =>
      split at hx
      · exact absurd hx (by simp)
      next z hz =>
        simp only [Option.map_eq_some'] at hx
        obtain ⟨pf1, -, rfl⟩ := hx
        exact heapExtends_trans (simstepH_extends hy) (ih _ _ _ z hz)

/-- C9: neither `simulate` nor `simulate_with_history` mutates the
caller's portfolio object — after a successful call on the heap model,
every pre-existing heap object (in particular the argument dictionary at
`r`) still holds exactly its old entries; the trial steps forward only
its own private copy. -/
theorem no_mutation_frame {G : Type} (gaussNext : G → ℚ × G)
    (seedFn : Nat → G) (seed : Nat) (h : Heap) (r : Nat)
    (params : ReturnProfiles) (days : Nat) :
    (∀ hr, simulateH gaussNext seedFn seed h r params days = some hr →
        ∀ j, j < h.length → hr.1.get? j = h.get? j) ∧
      ∀ hl, simulate_with_historyH gaussNext seedFn seed h r params days =
          some hl → ∀ j, j < h.length → hl.1.get? j = h.get? j := by
  constructor
  · intro hr hx j hj
    simp only [simulateH] at hx
    split at hx
    · exact absurd hx (by simp)
    next pf _ =>
      split at hx
      · exact absurd hx (by simp)
      next x hgo =>
        simp only [Option.map_eq_some'] at hx
        obtain ⟨res, -, rfl⟩ := hx
        exact (heapExtends_trans (heapExtends_append h [pf])
          (simGoH_extends gaussNext params days _ _ _ x hgo)).2 j hj
  · intro hl hx j hj
    simp only [simulate_with_historyH] at hx
    split at hx
    · exact absurd hx (by simp)
    next pf _ =>
      split at hx
      · exact absurd hx (by simp)
      next x hgo =>
        obtain rfl := Option.some.inj hx
        exact (heapExtends_trans (heapExtends_append h [pf])
          (histGoH_extends gaussNext params days _ _ _ x hgo)).2 j hj

/-- Witness for C9 at a concrete one-object heap (zero-day calls, whose
only heap effect is allocating the private copy). -/
theorem no_mutation_frame_witness :
    (∀ j, j < [[("AAA", (100 : ℚ))]].length →
        ([[("AAA", (100 : ℚ))], [("AAA", (100 : ℚ))]],
            [("AAA", (100 : ℚ))]).1.get? j = [[("AAA", (100 : ℚ))]].get? j) ∧
      ∀ j, j < [[("AAA", (100 : ℚ))]].length →
        ([[("AAA", (100 : ℚ))], [("AAA", (100 : ℚ))]],
            [portfolio_value [("AAA", (100 : ℚ))]]).1.get? j =
          [[("AAA", (100 : ℚ))]].get? j :=
  ⟨(no_mutation_frame (fun _ : Unit => ((0 : ℚ), ())) (fun _ => ()) 0
      [[("AAA", 100)]] 0 (fun _ => some (0, 0)) 0).1
    ([[("AAA", 100)], [("AAA", 100)]], [("AAA", 100)]) rfl,
    (no_mutation_frame (fun _ : Unit => ((0 : ℚ), ())) (fun _ => ()) 0
      [[("AAA", 100)]] 0 (fun _ => some (0, 0)) 0).2
    ([[("AAA", 100)], [("AAA", 100)]], [portfolio_value [("AAA", 100)]]) rfl⟩

end VarDemo
